import Mathlib

/-!
# Mutating admission webhook: annotation patch builder and admission decision

A shallow embedding of `mutating-webhook/main.go`.

Modelling conventions.

* Go strings are modelled by Lean `String`s (sequences of Unicode scalar
  values).  The only byte patterns the program searches for are the ASCII
  characters `~` and `/`, which never occur inside a multi-byte UTF-8
  sequence, so replacing them character-wise agrees with Go's byte-wise
  `strings.Replace` on every valid UTF-8 string.
* A Go `map[string]string` is an association list `GoMap`; `nil` versus a
  present (possibly empty) map is `Option GoMap`.  Indexing a map yields the
  zero value `""` for a missing key (`GoMap.index`).
* A `range` loop over a map visits the entries in an order chosen by the
  runtime.  The loop of `addAnnotations` is therefore modelled as a left fold
  over the list of entries *in the order the loop visits them*; that list is
  the enumeration `(k_1,v_1),...,(k_n,v_n)` of the desired mapping.
* `encoding/json` is an external service: `json.Unmarshal` into a `Pod` and
  `json.Marshal` of a patch are parameters (`JsonCodec`).
-/

namespace Webhook

/-! ## Go strings: `strings.Replace(s, old, new, -1)` -/

/-- The scanning loop of `strings.Replace` for a non-empty `old`: walk over the
text from the left; where `old` starts, emit `new` and skip `old`, otherwise
copy one character.  `fuel` bounds the number of steps. -/
def replaceLoop (old new : List Char) : Nat → List Char → List Char
  | 0, s => s
  | _ + 1, [] => []
  | fuel + 1, c :: cs =>
    if old.isPrefixOf (c :: cs) then
      new ++ replaceLoop old new fuel ((c :: cs).drop old.length)
    else
      c :: replaceLoop old new fuel cs

/-- Character-level `strings.Replace(s, old, new, -1)`: every non-overlapping
occurrence of `old`, found from the left, is replaced by `new`.  For an empty
`old` Go inserts `new` before every character and at the end. -/
def replaceAllChars (s old new : List Char) : List Char :=
  if old = [] then (s.flatMap fun c => new ++ [c]) ++ new
  else replaceLoop old new s.length s

/-- Go `strings.Replace(s, old, new, -1)`. -/
def stringsReplace (s old new : String) : String :=
  ⟨replaceAllChars s.data old.data new.data⟩

/-! ## `escapeJSONPointer` -/

/-- Source: `escapeJSONPointer`, main.go lines 39-43. -/
def escapeJSONPointer (s : String) : String :=
  let esc := stringsReplace s "~" "~0"
  let esc := stringsReplace esc "/" "~1"
  esc

/-! ## Go maps -/

/-- A Go `map[string]string`, as an association list (first binding wins). -/
abbrev GoMap := List (String × String)

/-- Go map indexing `m[k]`: the stored value, or the zero value `""`. -/
def GoMap.index (m : GoMap) (k : String) : String :=
  (m.lookup k).getD ""

/-- Go `delete(m, k)`: the map without the key `k`. -/
def GoMap.delete (m : GoMap) (k : String) : GoMap :=
  m.filter fun e => decide (e.1 ≠ k)

/-! ## JSON patch operations (`jsonpatch.JsonPatchOperation`) -/

/-- The `Value interface{}` of a patch operation: the program stores either a
string or a `map[string]string`. -/
inductive PatchValue where
  | str (s : String)
  | obj (m : GoMap)
deriving DecidableEq

/-- Source: `jsonpatch.JsonPatchOperation`. -/
structure JsonPatchOperation where
  Operation : String
  Path : String
  Value : PatchValue
deriving DecidableEq

/-! ## `addAnnotations` -/

/-- One iteration of the `for key, val := range toAdd` loop of
`addAnnotations` (main.go lines 139-160), on the loop state
`(current, patch)`. -/
def addAnnotationsStep (st : Option GoMap × List JsonPatchOperation)
    (kv : String × String) : Option GoMap × List JsonPatchOperation :=
  match st.1 with
  | none =>
    (some [],
     st.2 ++ [{ Operation := "add"
                Path := "/metadata/annotations"
                Value := PatchValue.obj [(kv.1, kv.2)] }])
  | some current =>
    let op := if GoMap.index current kv.1 ≠ "" then "replace" else "add"
    (some current,
     st.2 ++ [{ Operation := op
                Path := "/metadata/annotations/" ++ escapeJSONPointer kv.1
                Value := PatchValue.str kv.2 }])

/-- Source: `addAnnotations`, main.go lines 136-163.  `toAdd` lists the entries
of the desired map in the order the `range` loop visits them. -/
def addAnnotations (current : Option GoMap) (toAdd : List (String × String)) :
    List JsonPatchOperation :=
  (toAdd.foldl addAnnotationsStep (current, [])).2

/-! ## Kubernetes API types (the fields the program reads or writes) -/

/-- A Go `[]byte`. -/
abbrev Bytes := List UInt8

/-- A Go `error`; `msg` is the text returned by `err.Error()`. -/
structure GoError where
  msg : String
deriving DecidableEq

/-- Source: `metav1.ObjectMeta`; `Annotations` is `nil` (`none`) or a map. -/
structure ObjectMeta where
  Name : String := ""
  Namespace : String := ""
  Annotations : Option GoMap := none
deriving DecidableEq

/-- Source: `corev1.Pod` (the embedded `ObjectMeta`). -/
structure Pod where
  ObjectMeta : ObjectMeta := {}
deriving DecidableEq

/-- Source: `runtime.RawExtension`. -/
structure RawExtension where
  Raw : Bytes := []
deriving DecidableEq

/-- Source: `v1beta1.AdmissionRequest`. -/
structure AdmissionRequest where
  UID : String := ""
  Kind : String := ""
  Name : String := ""
  Namespace : String := ""
  Operation : String := ""
  UserInfo : String := ""
  Object : RawExtension := {}
deriving DecidableEq

/-- Source: `metav1.Status`. -/
structure Status where
  Message : String := ""
deriving DecidableEq

/-- Source: `v1beta1.PatchTypeJSONPatch`. -/
def PatchTypeJSONPatch : String := "JSONPatch"

/-- Source: `v1beta1.AdmissionResponse`; the defaults are Go's zero values
(`nil` pointers and the `nil` slice are `none`). -/
structure AdmissionResponse where
  UID : String := ""
  Allowed : Bool := false
  Result : Option Status := none
  Patch : Option Bytes := none
  PatchType : Option String := none
deriving DecidableEq

/-- Source: `v1beta1.AdmissionReview`; both members are pointers. -/
structure AdmissionReview where
  Request : Option AdmissionRequest := none
  Response : Option AdmissionResponse := none
deriving DecidableEq

/-- The serialization services the program calls: `json.Unmarshal` into a
`Pod`, `json.Marshal` of a patch, `deserializer.Decode` of the request envelope
and `json.Marshal` of the response envelope. -/
structure JsonCodec where
  unmarshalPod : Bytes → Except GoError Pod
  marshalPatch : List JsonPatchOperation → Except GoError Bytes
  decodeReview : Bytes → Except GoError AdmissionReview
  marshalReview : AdmissionReview → Except GoError Bytes

/-! ## Static configuration -/

/-- Source: `conduitVersion`, main.go line 28. -/
def conduitVersion : String := "rmars/branch"

/-- Source: `conduitAnnotation`, main.go lines 29-33 (entries in the order of
the map literal). -/
def conduitAnnotation : GoMap :=
  [ ("conduit.io", "hi-im-injected"),
    ("conduit.io/created-by", "conduit/webhook/" ++ conduitVersion),
    ("conduit.io/proxy-version", conduitVersion) ]

/-- Source: `metav1.NamespaceSystem` (k8s.io/apimachinery). -/
def NamespaceSystem : String := "kube-system"

/-- Source: `metav1.NamespacePublic` (k8s.io/apimachinery). -/
def NamespacePublic : String := "kube-public"

/-- Source: `kubeSystemNamespaces`, main.go lines 45-48. -/
def kubeSystemNamespaces : List String :=
  [NamespaceSystem, NamespacePublic]

/-! ## Admission policy and decision -/

/-- Source: `shouldInject`, main.go lines 165-176: the flag starts `true` and
the loop over `kubeSystemNamespaces` clears it on a match. -/
def shouldInject (metadata : ObjectMeta) : Bool :=
  kubeSystemNamespaces.foldl
    (fun shouldInject ns => if metadata.Namespace = ns then false else shouldInject)
    true

/-- Source: `admissionError`, main.go lines 85-89. -/
def admissionError (err : GoError) : AdmissionResponse :=
  { Result := some { Message := err.msg } }

/-- Source: `patchConfig`, main.go lines 129-134.  `annotations` lists the
entries of the map argument in the order `addAnnotations` ranges over it. -/
def patchConfig (json : JsonCodec) (pod : Pod) (annotations : List (String × String)) :
    Except GoError Bytes :=
  let patch : List JsonPatchOperation := []
  let patch := patch ++ addAnnotations pod.ObjectMeta.Annotations annotations
  json.marshalPatch patch

/-- Source: `getAdmissionDecision`, main.go lines 91-127.  `rangeOrder` is the
order in which the `range` loop visits the entries of `conduitAnnotation`
during this call.  The result is `none` when `admReq.Request` is `nil` (the
dereference `req.Object` panics); logging is not modelled. -/
def getAdmissionDecision (json : JsonCodec) (rangeOrder : List (String × String))
    (admReq : AdmissionReview) : Option AdmissionResponse :=
  match admReq.Request with
  | none => none
  | some req =>
    match json.unmarshalPod req.Object.Raw with
    | Except.error err => some (admissionError err)
    | Except.ok pod =>
      if !shouldInject pod.ObjectMeta then
        some { Allowed := true, UID := req.UID }
      else
        match patchConfig json pod rangeOrder with
        | Except.error err => some (admissionError err)
        | Except.ok patch =>
          let jsonPatchType := PatchTypeJSONPatch
          some { Allowed := true
                 Patch := some patch
                 PatchType := some jsonPatchType
                 UID := req.UID }

/-! ## HTTP handler -/

/-- What `handler` reads of the `*http.Request`: the result of
`ioutil.ReadAll(r.Body)` and `r.Header.Get("Content-Type")` (`""` when the
header is missing). -/
structure HttpRequest where
  Body : Except GoError Bytes
  ContentType : String

/-- The outcome of one `handler` call: it returned before writing anything, it
panicked, or it built the review `admResp` and wrote `body` to the response
writer. -/
inductive HandlerResult where
  | aborted
  | panicked
  | wrote (admResp : AdmissionReview) (body : Bytes)

/-- Source: `handler`, main.go lines 50-83.  When `json.Marshal(admResp)` fails
the error is logged and the `nil` slice is written. -/
def handler (json : JsonCodec) (rangeOrder : List (String × String)) (r : HttpRequest) :
    HandlerResult :=
  match r.Body with
  | Except.error _ => HandlerResult.aborted
  | Except.ok body =>
    if r.ContentType ≠ "application/json" then HandlerResult.aborted
    else
      let response : Option AdmissionResponse :=
        match json.decodeReview body with
        | Except.error err => some (admissionError err)
        | Except.ok admReq => getAdmissionDecision json rangeOrder admReq
      match response with
      | none => HandlerResult.panicked
      | some resp =>
        let admResp : AdmissionReview := { Response := some resp }
        match json.marshalReview admResp with
        | Except.error _ => HandlerResult.wrote admResp []
        | Except.ok resp => HandlerResult.wrote admResp resp

/-! ## RFC 6901 (JSON Pointer), as the specification states it -/

/-- RFC 6901 encoding of one character of a reference token: `~` is written
`~0`, `/` is written `~1`, any other character stands for itself. -/
def rfc6901EncodeChar (c : Char) : List Char :=
  if c = '~' then ['~', '0'] else if c = '/' then ['~', '1'] else [c]

/-- RFC 6901 encoding of a reference token: the concatenation of the encodings
of its characters. -/
def rfc6901Encode (s : String) : String :=
  ⟨s.data.flatMap rfc6901EncodeChar⟩

/-- RFC 6901 decoding of a reference token: first every `~1` becomes `/`, then
every `~0` becomes `~`. -/
def rfc6901Decode (s : String) : String :=
  stringsReplace (stringsReplace s "~1" "/") "~0" "~"

/-- The pieces of a text between its `/` separators. -/
def splitSlash : List Char → List (List Char)
  | [] => [[]]
  | c :: cs =>
    if c = '/' then [] :: splitSlash cs
    else
      match splitSlash cs with
      | [] => [[c]]
      | t :: ts => (c :: t) :: ts

/-- The reference tokens of a JSON pointer (RFC 6901): the empty pointer has
none; otherwise the pointer starts with `/`, the tokens are separated by `/`
and each one is decoded. -/
def parsePointer (p : String) : Option (List String) :=
  match p.data with
  | [] => some []
  | c :: rest =>
    if c = '/' then some ((splitSlash rest).map fun t => rfc6901Decode ⟨t⟩) else none

/-! ## RFC 6902 (JSON Patch) application to the annotations of a Pod, as the
specification states it -/

/-- The locations of a Pod document that the patch application below covers. -/
inductive Target where
  | container
  | member (key : String)
deriving DecidableEq

/-- The location a pointer denotes: `/metadata/annotations` is the annotation
container, `/metadata/annotations/<token>` is its member `<token>`. -/
def resolveTarget (path : String) : Option Target :=
  match parsePointer path with
  | some [a, b] =>
    if a = "metadata" ∧ b = "annotations" then some Target.container else none
  | some [a, b, k] =>
    if a = "metadata" ∧ b = "annotations" then some (Target.member k) else none
  | _ => none

/-- Store `k ↦ v` in a map: overwrite the existing member, or add one. -/
def GoMap.set : GoMap → String → String → GoMap
  | [], k, v => [(k, v)]
  | (k', v') :: rest, k, v =>
    if k' = k then (k, v) :: rest else (k', v') :: GoMap.set rest k v

/-- RFC 6902 application of one operation to the annotations of a Pod whose
`metadata` object exists (`doc` is `none` when `metadata` has no `annotations`
member).  `add` needs the parent of the target to exist and overwrites an
existing member; `replace` fails when the target does not exist.  The result
is `none` when the operation fails, and also for any operation outside the
documents modelled here (another operation name, another location, a
non-string annotation value, a non-object container). -/
def applyOperation (doc : Option GoMap) (op : JsonPatchOperation) : Option (Option GoMap) :=
  match resolveTarget op.Path, op.Value with
  | some Target.container, PatchValue.obj m =>
    if op.Operation = "add" then some (some m)
    else if op.Operation = "replace" then (if doc.isSome then some (some m) else none)
    else none
  | some (Target.member k), PatchValue.str v =>
    match doc with
    | none => none
    | some m =>
      if op.Operation = "add" then some (some (GoMap.set m k v))
      else if op.Operation = "replace" then
        (if (m.lookup k).isSome then some (some (GoMap.set m k v)) else none)
      else none
  | _, _ => none

/-- RFC 6902 application of a patch: the operations are applied in order and
the first failure fails the whole patch. -/
def applyPatch (doc : Option GoMap) : List JsonPatchOperation → Option (Option GoMap)
  | [] => some doc
  | op :: rest => (applyOperation doc op).bind fun d => applyPatch d rest

/-- The value of annotation `k` in a document state, if any. -/
def annotationOf (doc : Option GoMap) (k : String) : Option String :=
  doc.bind fun m => m.lookup k

/-! ## Auxiliary definitions for the proofs -/

/-- The operation the loop emits for the entry `kv` once `current` is a
present map (the `else` branch, main.go lines 150-158). -/
def perKeyOperation (current : GoMap) (kv : String × String) : JsonPatchOperation :=
  { Operation := if GoMap.index current kv.1 ≠ "" then "replace" else "add"
    Path := "/metadata/annotations/" ++ escapeJSONPointer kv.1
    Value := PatchValue.str kv.2 }

/-- The text after the first of the two decoding passes: `/` is restored, `~`
is still written `~0`. -/
def halfDecodedChar (c : Char) : List Char :=
  if c = '~' then ['~', '0'] else [c]

/-! ## A concrete codec for evaluating the program -/

/-- The bytes of an ASCII text. -/
def bytesOf (s : String) : Bytes :=
  s.data.map fun c => UInt8.ofNat c.toNat

/-- The raw object `{}`. -/
def rawEmptyPod : Bytes := bytesOf "\x7b\x7d"

/-- The raw object `{"metadata":{"namespace":"kube-system"}}`. -/
def rawKubeSystemPod : Bytes :=
  bytesOf "\x7b\"metadata\":\x7b\"namespace\":\"kube-system\"\x7d\x7d"

/-- The truncated raw object `{`. -/
def rawTruncated : Bytes := bytesOf "\x7b"

/-- Text rendering of a patch used by `sampleCodec` (no string escaping). -/
def renderPatch (ops : List JsonPatchOperation) : String :=
  String.intercalate "," (ops.map fun op =>
    op.Operation ++ " " ++ op.Path ++ " " ++
      (match op.Value with
       | PatchValue.str v => v
       | PatchValue.obj m => String.intercalate ";" (m.map fun kv => kv.1 ++ "=" ++ kv.2)))

/-- A small stand-in for the serialization services, used only to run the
program on concrete inputs.  Raw objects: `{}` is the empty Pod,
`{"metadata":{"namespace":"kube-system"}}` is a Pod in `kube-system`, anything
else (for instance the truncated text `{`) is rejected.  Request bodies: the
empty body is rejected, any other body is taken as the raw object of a request
with UID `uid-1`. -/
def sampleCodec : JsonCodec where
  unmarshalPod raw :=
    if raw = rawEmptyPod then Except.ok {}
    else if raw = rawKubeSystemPod then
      Except.ok { ObjectMeta := { Namespace := "kube-system" } }
    else Except.error { msg := "unexpected end of JSON input" }
  marshalPatch ops := Except.ok (bytesOf (renderPatch ops))
  decodeReview body :=
    if body = [] then Except.error { msg := "couldn't get version/kind; json parse error" }
    else Except.ok { Request := some { UID := "uid-1", Object := { Raw := body } } }
  marshalReview review :=
    Except.ok (bytesOf (match review.Response with
      | some resp => resp.UID ++ (if resp.Allowed then " allowed" else " denied")
      | none => ""))

/-! ## Lemmas on `strings.Replace` -/

theorem replaceLoop_single (a : Char) (new : List Char) :
    ∀ (fuel : Nat) (s : List Char), s.length ≤ fuel →
      replaceLoop [a] new fuel s = s.flatMap (fun c => if c = a then new else [c]) := by
  intro fuel
  induction fuel with
  | zero =>
    intro s hs
    have : s = [] := List.eq_nil_of_length_eq_zero (Nat.le_zero.mp hs)
    subst this
    simp [replaceLoop]
  | succ n ih =>
    intro s hs
    cases s with
    | nil => simp [replaceLoop]
    | cons c cs =>
      have hcs : cs.length ≤ n := by simpa using hs
      by_cases hc : c = a
      · subst hc
        simp [replaceLoop, ih cs hcs]
      · have hc2 : ¬ a = c := fun h => hc h.symm
        simp [replaceLoop, ih cs hcs, hc, hc2]

/-- The fuel `replaceAllChars` supplies is enough: with a non-empty `old`, any
fuel of at least the length of the text gives the same result. -/
theorem replaceLoop_fuel (old new : List Char) (hold : old ≠ []) :
    ∀ (fuel : Nat) (s : List Char), s.length ≤ fuel →
      replaceLoop old new fuel s = replaceLoop old new s.length s := by
  intro fuel
  induction fuel using Nat.strong_induction_on with
  | _ fuel ih =>
    intro s hs
    cases fuel with
    | zero =>
      have : s = [] := List.eq_nil_of_length_eq_zero (Nat.le_zero.mp hs)
      subst this
      rfl
    | succ n =>
      cases s with
      | nil => simp [replaceLoop]
      | cons c cs =>
        have hcs : cs.length ≤ n := by simpa using hs
        have hpos : 0 < old.length := List.length_pos.mpr hold
        have hdrop : ((c :: cs).drop old.length).length ≤ cs.length := by
          simp only [List.length_drop, List.length_cons]; omega
        simp only [List.length_cons, replaceLoop]
        rw [ih n (Nat.lt_succ_self n) _ (Nat.le_trans hdrop hcs),
          ih n (Nat.lt_succ_self n) cs hcs,
          ih cs.length (Nat.lt_succ_of_le hcs) _ hdrop,
          ih cs.length (Nat.lt_succ_of_le hcs) cs (Nat.le_refl _)]

theorem replaceAllChars_single (a : Char) (new s : List Char) :
    replaceAllChars s [a] new = s.flatMap (fun c => if c = a then new else [c]) := by
  simp [replaceAllChars, replaceLoop_single a new s.length s (Nat.le_refl _)]

theorem escape_chars (s : List Char) :
    replaceAllChars (replaceAllChars s ['~'] ['~', '0']) ['/'] ['~', '1']
      = s.flatMap rfc6901EncodeChar := by
  rw [replaceAllChars_single, replaceAllChars_single]
  induction s with
  | nil => rfl
  | cons c cs ih =>
    simp only [List.flatMap_cons, List.flatMap_append, ih]
    congr 1
    by_cases h1 : c = '~'
    · subst h1; simp [rfc6901EncodeChar]
    · by_cases h2 : c = '/'
      · subst h2; simp [rfc6901EncodeChar]
      · simp [rfc6901EncodeChar, h1, h2]

theorem escapeJSONPointer_data (s : String) :
    (escapeJSONPointer s).data = s.data.flatMap rfc6901EncodeChar := by
  simp only [escapeJSONPointer, stringsReplace]
  exact escape_chars s.data

/-- C6: for every string `s`, `escapeJSONPointer s` is the RFC 6901 encoding of
`s`: character by character, `~0` for `~`, `~1` for `/`, the character itself
otherwise.  In particular `/` becomes `~1`, never `~01`. -/
theorem escapeJSONPointer_eq_rfc6901Encode (s : String) :
    escapeJSONPointer s = rfc6901Encode s ∧ escapeJSONPointer "/" = "~1" := by
  refine ⟨?_, by decide⟩
  apply String.ext
  simp [escapeJSONPointer_data, rfc6901Encode]

/-! ## The loop of `addAnnotations` -/

theorem foldl_addAnnotationsStep_some (current : GoMap) (toAdd : List (String × String)) :
    ∀ acc : List JsonPatchOperation,
      toAdd.foldl addAnnotationsStep (some current, acc)
        = (some current, acc ++ toAdd.map (perKeyOperation current)) := by
  induction toAdd with
  | nil => intro acc; simp
  | cons kv rest ih =>
    intro acc
    simp [List.foldl_cons, addAnnotationsStep, ih, perKeyOperation]

theorem addAnnotations_some (current : GoMap) (toAdd : List (String × String)) :
    addAnnotations (some current) toAdd = toAdd.map (perKeyOperation current) := by
  simp [addAnnotations, foldl_addAnnotationsStep_some]

theorem addAnnotations_none_cons (kv : String × String) (rest : List (String × String)) :
    addAnnotations none (kv :: rest)
      = { Operation := "add", Path := "/metadata/annotations",
          Value := PatchValue.obj [(kv.1, kv.2)] } :: rest.map (perKeyOperation []) := by
  simp [addAnnotations, List.foldl_cons, addAnnotationsStep, foldl_addAnnotationsStep_some]

theorem index_ne_empty_iff (current : GoMap) (k : String) :
    GoMap.index current k ≠ "" ↔ ∃ v, current.lookup k = some v ∧ v ≠ "" := by
  unfold GoMap.index
  cases h : current.lookup k with
  | none => simp
  | some v => simp

/-- C3 (refuted as stated): with absent annotations and the two-entry desired
mapping `a ↦ 1, b ↦ 2`, `addAnnotations` returns two operations, and the
value of the first is the single-entry map `a ↦ 1`, not the entire mapping. -/
theorem addAnnotations_nil_two_entries :
    addAnnotations none [("a", "1"), ("b", "2")]
        = [ { Operation := "add", Path := "/metadata/annotations",
              Value := PatchValue.obj [("a", "1")] },
            { Operation := "add", Path := "/metadata/annotations/b",
              Value := PatchValue.str "2" } ]
      ∧ addAnnotations none [("a", "1"), ("b", "2")]
        ≠ [ { Operation := "add", Path := "/metadata/annotations",
              Value := PatchValue.obj [("a", "1"), ("b", "2")] } ] := by
  decide

/-- C3 (amended): with absent annotations, the empty desired mapping yields no
operation; a desired mapping enumerated as `(k_1,v_1),...,(k_n,v_n)` with
`n ≥ 1` yields `n` operations, the first being `add` at
`/metadata/annotations` with the single-entry map `k_1 ↦ v_1` as value (the
entire mapping when `n = 1`), followed by one `add` at
`/metadata/annotations/<escaped k_i>` with value `v_i` for each further
entry. -/
theorem addAnnotations_absent (toAdd : List (String × String)) :
    addAnnotations none toAdd =
      (match toAdd with
       | [] => []
       | kv :: rest =>
         { Operation := "add", Path := "/metadata/annotations",
           Value := PatchValue.obj [(kv.1, kv.2)] }
         :: rest.map (fun e =>
              { Operation := "add"
                Path := "/metadata/annotations/" ++ escapeJSONPointer e.1
                Value := PatchValue.str e.2 })) := by
  cases toAdd with
  | nil => simp [addAnnotations]
  | cons kv rest =>
    rw [addAnnotations_none_cons]
    simp [perKeyOperation, GoMap.index]

/-- C4: for a present existing map `current` (possibly empty) and a desired
mapping enumerated as `(k_1,v_1),...,(k_n,v_n)`, `addAnnotations` returns
exactly `n` operations in that order; the `i`-th has path
`/metadata/annotations/` followed by `escapeJSONPointer k_i`, value `v_i`, and
operation `replace` if `k_i` is present in `current` with a non-empty value
and `add` otherwise. -/
theorem addAnnotations_present (current : GoMap) (toAdd : List (String × String)) :
    addAnnotations (some current) toAdd =
      toAdd.map (fun kv =>
        { Operation :=
            (match current.lookup kv.1 with
             | some v => if v = "" then "add" else "replace"
             | none => "add")
          Path := "/metadata/annotations/" ++ escapeJSONPointer kv.1
          Value := PatchValue.str kv.2 }) := by
  rw [addAnnotations_some]
  apply List.map_congr_left
  intro kv _
  unfold perKeyOperation GoMap.index
  cases h : current.lookup kv.1 with
  | none => simp
  | some v => by_cases hv : v = "" <;> simp [hv]

/-! ## Admission policy -/

/-- C5: for every namespace string and whatever the other metadata fields,
`shouldInject` returns `false` if and only if the namespace is exactly
`kube-system` or exactly `kube-public`, and `true` otherwise; two metadata
values with the same namespace get the same answer.  The empty namespace and
names that merely contain or extend a reserved name are injected. -/
theorem shouldInject_iff (ns name name2 : String) (ann ann2 : Option GoMap) :
    (shouldInject { Name := name, Namespace := ns, Annotations := ann } = false
        ↔ (ns = "kube-system" ∨ ns = "kube-public"))
    ∧ (shouldInject { Name := name, Namespace := ns, Annotations := ann } = true
        ↔ ¬ (ns = "kube-system" ∨ ns = "kube-public"))
    ∧ shouldInject { Name := name, Namespace := ns, Annotations := ann }
        = shouldInject { Name := name2, Namespace := ns, Annotations := ann2 }
    ∧ shouldInject { Namespace := "" } = true
    ∧ shouldInject { Namespace := "kube-system-2" } = true
    ∧ shouldInject { Namespace := "my-kube-public" } = true := by
  refine ⟨?_, ?_, rfl, by decide, by decide, by decide⟩
  · simp only [shouldInject, kubeSystemNamespaces, NamespaceSystem, NamespacePublic,
      List.foldl_cons, List.foldl_nil]
    by_cases h1 : ns = "kube-system" <;> by_cases h2 : ns = "kube-public" <;> simp [h1, h2]
  · simp only [shouldInject, kubeSystemNamespaces, NamespaceSystem, NamespacePublic,
      List.foldl_cons, List.foldl_nil]
    by_cases h1 : ns = "kube-system" <;> by_cases h2 : ns = "kube-public" <;> simp [h1, h2]

/-! ## Admission decision -/

/-- C2 (the code departs from the claim): a decoded request with UID `uid-1`
whose raw object is the truncated text `{` fails to unmarshal, and the error
response returned by `getAdmissionDecision` has the empty UID, not `uid-1`. -/
theorem getAdmissionDecision_unmarshal_error_uid :
    getAdmissionDecision sampleCodec conduitAnnotation
        { Request := some { UID := "uid-1", Object := { Raw := rawTruncated } } }
      = some { UID := "", Allowed := false,
               Result := some { Message := "unexpected end of JSON input" },
               Patch := none, PatchType := none } := by
  decide

/-- C8: for a decoded request whose raw object unmarshals to a Pod that
`shouldInject` accepts and whose patch serializes to `patch`,
`getAdmissionDecision` returns allowed = true, the request's UID, patch type
`JSONPatch`, no status, and as patch bytes the serialization of
`addAnnotations` applied to the Pod's annotations and the static desired set
(in the order `rangeOrder` in which the loop visits it). -/
theorem getAdmissionDecision_inject (json : JsonCodec) (rangeOrder : List (String × String))
    (review : AdmissionReview) (req : AdmissionRequest) (pod : Pod) (patch : Bytes)
    (hreq : review.Request = some req)
    (_horder : rangeOrder.Perm conduitAnnotation)
    (hpod : json.unmarshalPod req.Object.Raw = Except.ok pod)
    (hinject : shouldInject pod.ObjectMeta = true)
    (hpatch : json.marshalPatch (addAnnotations pod.ObjectMeta.Annotations rangeOrder)
      = Except.ok patch) :
    getAdmissionDecision json rangeOrder review
      = some { UID := req.UID, Allowed := true, Result := none,
               Patch := some patch, PatchType := some "JSONPatch" } := by
  simp [getAdmissionDecision, hreq, hpod, hinject, patchConfig, hpatch, PatchTypeJSONPatch]

/-- Instance of C8: the request `uid-1` carrying the raw object `{}`. -/
theorem getAdmissionDecision_inject_witness :
    getAdmissionDecision sampleCodec conduitAnnotation
        { Request := some { UID := "uid-1", Object := { Raw := rawEmptyPod } } }
      = some { UID := "uid-1", Allowed := true, Result := none,
               Patch := some (bytesOf (renderPatch (addAnnotations none conduitAnnotation))),
               PatchType := some "JSONPatch" } :=
  getAdmissionDecision_inject sampleCodec conduitAnnotation
    { Request := some { UID := "uid-1", Object := { Raw := rawEmptyPod } } }
    { UID := "uid-1", Object := { Raw := rawEmptyPod } } {}
    (bytesOf (renderPatch (addAnnotations none conduitAnnotation)))
    rfl (List.Perm.refl _) rfl (by decide) rfl

/-- C9: for a decoded request whose raw object unmarshals to a Pod in a
reserved namespace (`shouldInject` is `false`), whatever the Pod's
annotations, `getAdmissionDecision` returns allowed = true, the request's UID,
no patch, no patch type and no status. -/
theorem getAdmissionDecision_skip (json : JsonCodec) (rangeOrder : List (String × String))
    (review : AdmissionReview) (req : AdmissionRequest) (pod : Pod)
    (hreq : review.Request = some req)
    (hpod : json.unmarshalPod req.Object.Raw = Except.ok pod)
    (hskip : shouldInject pod.ObjectMeta = false) :
    getAdmissionDecision json rangeOrder review
      = some { UID := req.UID, Allowed := true, Result := none,
               Patch := none, PatchType := none } := by
  simp [getAdmissionDecision, hreq, hpod, hskip]

/-- Instance of C9: the request `uid-1` carrying a Pod of `kube-system`. -/
theorem getAdmissionDecision_skip_witness :
    getAdmissionDecision sampleCodec conduitAnnotation
        { Request := some { UID := "uid-1", Object := { Raw := rawKubeSystemPod } } }
      = some { UID := "uid-1", Allowed := true, Result := none,
               Patch := none, PatchType := none } :=
  getAdmissionDecision_skip sampleCodec conduitAnnotation
    { Request := some { UID := "uid-1", Object := { Raw := rawKubeSystemPod } } }
    { UID := "uid-1", Object := { Raw := rawKubeSystemPod } }
    { ObjectMeta := { Namespace := "kube-system" } }
    rfl rfl (by decide)

/-- C10: for every error `e`, `admissionError e` has allowed = false, the
empty UID, no patch, no patch type, and a status whose message is exactly the
text of `e`; it is the response `handler` puts in the review it writes when
the request envelope fails to decode with `e`. -/
theorem admissionError_response (json : JsonCodec) (rangeOrder : List (String × String))
    (body : Bytes) (e : GoError) (hdecode : json.decodeReview body = Except.error e) :
    admissionError e
        = { UID := "", Allowed := false, Result := some { Message := e.msg },
            Patch := none, PatchType := none }
      ∧ ∃ out, handler json rangeOrder { Body := Except.ok body, ContentType := "application/json" }
          = HandlerResult.wrote { Request := none, Response := some (admissionError e) } out := by
  refine ⟨rfl, ?_⟩
  simp only [handler, hdecode]
  cases h : json.marshalReview { Response := some (admissionError e) } with
  | error err => exact ⟨[], by simp⟩
  | ok out => exact ⟨out, by simp⟩

/-- Instance of C10: the empty request body, which `sampleCodec` rejects. -/
theorem admissionError_response_witness :
    admissionError { msg := "couldn't get version/kind; json parse error" }
        = { UID := "", Allowed := false,
            Result := some { Message := "couldn't get version/kind; json parse error" },
            Patch := none, PatchType := none }
      ∧ ∃ out, handler sampleCodec conduitAnnotation
            { Body := Except.ok [], ContentType := "application/json" }
          = HandlerResult.wrote
              { Request := none,
                Response := some (admissionError
                  { msg := "couldn't get version/kind; json parse error" }) } out :=
  admissionError_response sampleCodec conduitAnnotation []
    { msg := "couldn't get version/kind; json parse error" } rfl

/-! ## Shape of an escaped key -/

theorem slash_not_mem_encoded (s : List Char) : '/' ∉ s.flatMap rfc6901EncodeChar := by
  intro h
  obtain ⟨c, _, hc⟩ := List.mem_flatMap.mp h
  unfold rfc6901EncodeChar at hc
  by_cases h1 : c = '~'
  · simp [h1] at hc
  · by_cases h2 : c = '/'
    · simp [h2] at hc
    · simp [h1, h2] at hc
      exact h2 hc.symm

theorem tilde_followed_encoded (s : List Char) :
    ∀ i : Nat, (s.flatMap rfc6901EncodeChar)[i]? = some '~' →
      (s.flatMap rfc6901EncodeChar)[i + 1]? = some '0'
        ∨ (s.flatMap rfc6901EncodeChar)[i + 1]? = some '1' := by
  induction s with
  | nil => intro i h; simp at h
  | cons c cs ih =>
    intro i h
    by_cases h1 : c = '~'
    · subst h1
      have e : (('~' :: cs).flatMap rfc6901EncodeChar)
          = '~' :: '0' :: cs.flatMap rfc6901EncodeChar := by
        simp [rfc6901EncodeChar]
      rw [e] at h ⊢
      match i, h with
      | 0, _ => simp
      | 1, h => simp at h
      | j + 2, h =>
        simp only [List.getElem?_cons_succ] at h ⊢
        exact ih j h
    · by_cases h2 : c = '/'
      · subst h2
        have e : (('/' :: cs).flatMap rfc6901EncodeChar)
            = '~' :: '1' :: cs.flatMap rfc6901EncodeChar := by
          simp [rfc6901EncodeChar]
        rw [e] at h ⊢
        match i, h with
        | 0, _ => simp
        | 1, h => simp at h
        | j + 2, h =>
          simp only [List.getElem?_cons_succ] at h ⊢
          exact ih j h
      · have e : ((c :: cs).flatMap rfc6901EncodeChar)
            = c :: cs.flatMap rfc6901EncodeChar := by
          simp [rfc6901EncodeChar, h1, h2]
        rw [e] at h ⊢
        match i, h with
        | 0, h => simp at h; exact absurd h h1
        | j + 1, h =>
          simp only [List.getElem?_cons_succ] at h ⊢
          exact ih j h

theorem mem_perKey_operations (current : Option GoMap) (toAdd : List (String × String))
    (op : JsonPatchOperation)
    (hop : op ∈ (match current with
      | some _ => addAnnotations current toAdd
      | none => (addAnnotations current toAdd).tail)) :
    ∃ kv ∈ toAdd, op.Path = "/metadata/annotations/" ++ escapeJSONPointer kv.1 := by
  cases current with
  | some cur =>
    simp only [addAnnotations_some] at hop
    obtain ⟨kv, hkv, rfl⟩ := List.mem_map.mp hop
    exact ⟨kv, hkv, rfl⟩
  | none =>
    cases toAdd with
    | nil => simp [addAnnotations] at hop
    | cons kv rest =>
      simp only [addAnnotations_none_cons, List.tail_cons] at hop
      obtain ⟨e, he, rfl⟩ := List.mem_map.mp hop
      exact ⟨e, List.mem_cons_of_mem _ he, rfl⟩

/-- C7: every per-key operation emitted by `addAnnotations` (every operation
when the existing annotations are present, every operation after the first
when they are absent) has a path made of the literal prefix
`/metadata/annotations/` followed by the escaped key of a desired entry, and
that segment contains no `/` and each of its `~` is immediately followed by
`0` or `1`; the key `a/b` yields exactly `/metadata/annotations/a~1b`. -/
theorem addAnnotations_perKey_path (current : Option GoMap) (toAdd : List (String × String))
    (op : JsonPatchOperation)
    (hop : op ∈ (match current with
      | some _ => addAnnotations current toAdd
      | none => (addAnnotations current toAdd).tail)) :
    (∃ kv ∈ toAdd,
        op.Path = "/metadata/annotations/" ++ escapeJSONPointer kv.1
        ∧ '/' ∉ (escapeJSONPointer kv.1).data
        ∧ ∀ i : Nat, (escapeJSONPointer kv.1).data[i]? = some '~' →
            (escapeJSONPointer kv.1).data[i + 1]? = some '0'
              ∨ (escapeJSONPointer kv.1).data[i + 1]? = some '1')
    ∧ (addAnnotations (some [("a/b", "old")]) [("a/b", "new")]).map (fun o => o.Path)
        = ["/metadata/annotations/a~1b"] := by
  refine ⟨?_, by decide⟩
  obtain ⟨kv, hkv, hpath⟩ := mem_perKey_operations current toAdd op hop
  refine ⟨kv, hkv, hpath, ?_, ?_⟩
  · rw [escapeJSONPointer_data]; exact slash_not_mem_encoded _
  · rw [escapeJSONPointer_data]; exact tilde_followed_encoded _

/-- Instance of C7: the second operation emitted for absent annotations and
the desired entries `x ↦ 1, a/b~c ↦ 2`. -/
theorem addAnnotations_perKey_path_witness :
    (∃ kv ∈ [("x", "1"), ("a/b~c", "2")],
        (JsonPatchOperation.mk "add" "/metadata/annotations/a~1b~0c" (PatchValue.str "2")).Path
          = "/metadata/annotations/" ++ escapeJSONPointer kv.1
        ∧ '/' ∉ (escapeJSONPointer kv.1).data
        ∧ ∀ i : Nat, (escapeJSONPointer kv.1).data[i]? = some '~' →
            (escapeJSONPointer kv.1).data[i + 1]? = some '0'
              ∨ (escapeJSONPointer kv.1).data[i + 1]? = some '1')
    ∧ (addAnnotations (some [("a/b", "old")]) [("a/b", "new")]).map (fun o => o.Path)
        = ["/metadata/annotations/a~1b"] :=
  addAnnotations_perKey_path none [("x", "1"), ("a/b~c", "2")]
    (JsonPatchOperation.mk "add" "/metadata/annotations/a~1b~0c" (PatchValue.str "2"))
    (by decide)

/-! ## Decoding an escaped key -/

theorem replaceLoop_tilde_one (s : List Char) :
    ∀ fuel : Nat, (s.flatMap rfc6901EncodeChar).length ≤ fuel →
      replaceLoop ['~', '1'] ['/'] fuel (s.flatMap rfc6901EncodeChar)
        = s.flatMap halfDecodedChar := by
  induction s with
  | nil => intro fuel _; cases fuel <;> simp [replaceLoop]
  | cons c cs ih =>
    intro fuel hfuel
    by_cases h1 : c = '~'
    · subst h1
      have e : (('~' :: cs).flatMap rfc6901EncodeChar)
          = '~' :: '0' :: cs.flatMap rfc6901EncodeChar := by
        simp [rfc6901EncodeChar]
      rw [e] at hfuel ⊢
      match fuel, hfuel with
      | 0, h => simp at h
      | 1, h => simp at h
      | f + 2, h =>
        have hf : (cs.flatMap rfc6901EncodeChar).length ≤ f := by simpa using h
        simp [replaceLoop, ih f hf, halfDecodedChar]
    · by_cases h2 : c = '/'
      · subst h2
        have e : (('/' :: cs).flatMap rfc6901EncodeChar)
            = '~' :: '1' :: cs.flatMap rfc6901EncodeChar := by
          simp [rfc6901EncodeChar]
        rw [e] at hfuel ⊢
        match fuel, hfuel with
        | 0, h => simp at h
        | f + 1, h =>
          have hf : (cs.flatMap rfc6901EncodeChar).length ≤ f := by
            simp only [List.length_cons] at h; omega
          simp [replaceLoop, ih f hf, halfDecodedChar]
      · have e : ((c :: cs).flatMap rfc6901EncodeChar)
            = c :: cs.flatMap rfc6901EncodeChar := by
          simp [rfc6901EncodeChar, h1, h2]
        rw [e] at hfuel ⊢
        match fuel, hfuel with
        | 0, h => simp at h
        | f + 1, h =>
          have hf : (cs.flatMap rfc6901EncodeChar).length ≤ f := by simpa using h
          have h1b : ¬ '~' = c := fun h => h1 h.symm
          simp [replaceLoop, ih f hf, halfDecodedChar, h1, h1b]

theorem replaceLoop_tilde_zero (s : List Char) :
    ∀ fuel : Nat, (s.flatMap halfDecodedChar).length ≤ fuel →
      replaceLoop ['~', '0'] ['~'] fuel (s.flatMap halfDecodedChar) = s := by
  induction s with
  | nil => intro fuel _; cases fuel <;> simp [replaceLoop]
  | cons c cs ih =>
    intro fuel hfuel
    by_cases h1 : c = '~'
    · subst h1
      have e : (('~' :: cs).flatMap halfDecodedChar)
          = '~' :: '0' :: cs.flatMap halfDecodedChar := by
        simp [halfDecodedChar]
      rw [e] at hfuel ⊢
      match fuel, hfuel with
      | 0, h => simp at h
      | f + 1, h =>
        have hf : (cs.flatMap halfDecodedChar).length ≤ f := by
          simp only [List.length_cons] at h; omega
        simp [replaceLoop, ih f hf]
    · have e : ((c :: cs).flatMap halfDecodedChar) = c :: cs.flatMap halfDecodedChar := by
        simp [halfDecodedChar, h1]
      rw [e] at hfuel ⊢
      match fuel, hfuel with
      | 0, h => simp at h
      | f + 1, h =>
        have hf : (cs.flatMap halfDecodedChar).length ≤ f := by simpa using h
        have h1b : ¬ '~' = c := fun h => h1 h.symm
        simp [replaceLoop, ih f hf, h1b]

theorem rfc6901Decode_escapeJSONPointer (s : String) :
    rfc6901Decode (escapeJSONPointer s) = s := by
  apply String.ext
  have hd : (escapeJSONPointer s).data = s.data.flatMap rfc6901EncodeChar :=
    escapeJSONPointer_data s
  have h1 : replaceAllChars (escapeJSONPointer s).data ['~', '1'] ['/']
      = s.data.flatMap halfDecodedChar := by
    rw [hd]
    unfold replaceAllChars
    rw [if_neg (by simp)]
    exact replaceLoop_tilde_one s.data _ (Nat.le_refl _)
  have h2 : replaceAllChars (s.data.flatMap halfDecodedChar) ['~', '0'] ['~'] = s.data := by
    unfold replaceAllChars
    rw [if_neg (by simp)]
    exact replaceLoop_tilde_zero s.data _ (Nat.le_refl _)
  show replaceAllChars (replaceAllChars (escapeJSONPointer s).data ['~', '1'] ['/'])
      ['~', '0'] ['~'] = s.data
  rw [h1, h2]

/-! ## Resolving the paths of the emitted operations -/

theorem splitSlash_of_not_mem (t : List Char) (h : '/' ∉ t) : splitSlash t = [t] := by
  induction t with
  | nil => rfl
  | cons c cs ih =>
    have hc : ¬ c = '/' := fun e => h (by simp [e])
    have hcs : '/' ∉ cs := fun e => h (List.mem_cons_of_mem _ e)
    simp [splitSlash, hc, ih hcs]

theorem splitSlash_append (a b : List Char) (h : '/' ∉ a) :
    splitSlash (a ++ '/' :: b) = a :: splitSlash b := by
  induction a with
  | nil => simp [splitSlash]
  | cons c cs ih =>
    have hc : ¬ c = '/' := fun e => h (by simp [e])
    have hcs : '/' ∉ cs := fun e => h (List.mem_cons_of_mem _ e)
    simp [splitSlash, hc, ih hcs]

theorem resolveTarget_container :
    resolveTarget "/metadata/annotations" = some Target.container := by
  decide

theorem resolveTarget_member (k : String) :
    resolveTarget ("/metadata/annotations/" ++ escapeJSONPointer k)
      = some (Target.member k) := by
  have hno : '/' ∉ (escapeJSONPointer k).data := by
    rw [escapeJSONPointer_data]; exact slash_not_mem_encoded _
  have hdata : ("/metadata/annotations/" ++ escapeJSONPointer k).data
      = '/' :: ("metadata".data ++ '/' :: ("annotations".data ++
          '/' :: (escapeJSONPointer k).data)) := by
    rw [String.data_append]; rfl
  have hsplit : splitSlash ("metadata".data ++ '/' :: ("annotations".data ++
          '/' :: (escapeJSONPointer k).data))
      = ["metadata".data, "annotations".data, (escapeJSONPointer k).data] := by
    rw [splitSlash_append _ _ (by decide), splitSlash_append _ _ (by decide),
      splitSlash_of_not_mem _ hno]
  have hparse : parsePointer ("/metadata/annotations/" ++ escapeJSONPointer k)
      = some ["metadata", "annotations", k] := by
    unfold parsePointer
    rw [hdata]
    simp only [if_true, hsplit, List.map_cons, List.map_nil]
    have e1 : rfc6901Decode ⟨"metadata".data⟩ = "metadata" := by decide
    have e2 : rfc6901Decode ⟨"annotations".data⟩ = "annotations" := by decide
    have e3 : rfc6901Decode ⟨(escapeJSONPointer k).data⟩ = k :=
      rfc6901Decode_escapeJSONPointer k
    rw [e1, e2, e3]
  unfold resolveTarget
  rw [hparse]
  simp

/-! ## Applying the patch built by `addAnnotations` -/

theorem lookup_cons_ite (k a b : String) (rest : GoMap) :
    List.lookup k ((a, b) :: rest) = if k = a then some b else List.lookup k rest := by
  by_cases h : k = a
  · subst h; simp [List.lookup]
  · have hb : (k == a) = false := by simpa using h
    simp [List.lookup, hb, h]

theorem lookup_set (m : GoMap) (k v k' : String) :
    (GoMap.set m k v).lookup k' = if k' = k then some v else m.lookup k' := by
  induction m with
  | nil =>
    simp only [GoMap.set, lookup_cons_ite]
  | cons e rest ih =>
    obtain ⟨a, b⟩ := e
    by_cases hak : a = k
    · subst hak
      simp only [GoMap.set, if_true, lookup_cons_ite]
      by_cases h : k' = a <;> simp [h]
    · simp only [GoMap.set, hak, if_false, lookup_cons_ite, ih]
      by_cases h : k' = a
      · have hk : ¬ k' = k := fun e => hak (h ▸ e)
        simp [h, hak]
      · simp [h]

theorem applyOperation_perKey (current m : GoMap) (kv : String × String)
    (h : GoMap.index current kv.1 ≠ "" → (m.lookup kv.1).isSome = true) :
    applyOperation (some m) (perKeyOperation current kv)
      = some (some (GoMap.set m kv.1 kv.2)) := by
  unfold applyOperation
  simp only [perKeyOperation, resolveTarget_member]
  by_cases hidx : GoMap.index current kv.1 = ""
  · simp [hidx]
  · have hm := h hidx
    have e1 : ("replace" : String) ≠ "add" := by decide
    simp [hidx, hm, e1]

theorem applyPatch_perKey (current : GoMap) :
    ∀ (toAdd : List (String × String)) (m : GoMap),
      (toAdd.map Prod.fst).Nodup →
      (∀ kv ∈ toAdd, GoMap.index current kv.1 ≠ "" → (m.lookup kv.1).isSome = true) →
      ∃ m', applyPatch (some m) (toAdd.map (perKeyOperation current)) = some (some m')
        ∧ (∀ kv ∈ toAdd, m'.lookup kv.1 = some kv.2)
        ∧ (∀ k, k ∉ toAdd.map Prod.fst → m'.lookup k = m.lookup k) := by
  intro toAdd
  induction toAdd with
  | nil => intro m _ _; exact ⟨m, rfl, by simp, by simp⟩
  | cons kv rest ih =>
    intro m hnodup hpresent
    have hnd := List.nodup_cons.mp hnodup
    have hstep := applyOperation_perKey current m kv (hpresent kv (List.mem_cons_self _ _))
    have hrest : ∀ e ∈ rest, GoMap.index current e.1 ≠ "" →
        ((GoMap.set m kv.1 kv.2).lookup e.1).isSome = true := by
      intro e he hidx
      rw [lookup_set]
      by_cases hek : e.1 = kv.1
      · simp [hek]
      · simp only [hek, if_false]
        exact hpresent e (List.mem_cons_of_mem _ he) hidx
    obtain ⟨m', happly, hdesired, hother⟩ := ih (GoMap.set m kv.1 kv.2) hnd.2 hrest
    refine ⟨m', ?_, ?_, ?_⟩
    · simp only [List.map_cons, applyPatch, hstep, Option.bind]
      exact happly
    · intro e he
      rcases List.mem_cons.mp he with h | h
      · subst h
        rw [hother e.1 hnd.1, lookup_set]
        simp
      · exact hdesired e h
    · intro k hk
      have hk1 : ¬ k = kv.1 := fun e => hk (by simp [e])
      have hk2 : k ∉ rest.map Prod.fst := fun e => hk (by
        simp only [List.map_cons]; exact List.mem_cons_of_mem _ e)
      rw [hother k hk2, lookup_set]
      simp [hk1]

/-- C1: for every existing annotation state (absent, or a present map) and
every desired mapping (an enumeration with pairwise distinct keys), applying
the operations returned by `addAnnotations` in order under RFC 6902 succeeds,
and in the resulting annotations every desired key has its desired value and
every other key has what it had before. -/
theorem addAnnotations_applies (current : Option GoMap) (toAdd : List (String × String))
    (hkeys : (toAdd.map Prod.fst).Nodup) :
    ∃ final, applyPatch current (addAnnotations current toAdd) = some final
      ∧ (∀ kv ∈ toAdd, annotationOf final kv.1 = some kv.2)
      ∧ (∀ k, k ∉ toAdd.map Prod.fst → annotationOf final k = annotationOf current k) := by
  cases current with
  | some cur =>
    have hpresent : ∀ kv ∈ toAdd, GoMap.index cur kv.1 ≠ "" →
        (cur.lookup kv.1).isSome = true := by
      intro kv _ hidx
      obtain ⟨v, hv, _⟩ := (index_ne_empty_iff cur kv.1).mp hidx
      simp [hv]
    obtain ⟨m', happly, hdesired, hother⟩ := applyPatch_perKey cur toAdd cur hkeys hpresent
    refine ⟨some m', ?_, ?_, ?_⟩
    · rw [addAnnotations_some]; exact happly
    · intro kv hkv; simpa [annotationOf] using hdesired kv hkv
    · intro k hk; simpa [annotationOf] using hother k hk
  | none =>
    cases toAdd with
    | nil => exact ⟨none, rfl, by simp, by simp⟩
    | cons kv rest =>
      have hnd := List.nodup_cons.mp hkeys
      have hvac : ∀ e ∈ rest, GoMap.index [] e.1 ≠ "" →
          (List.lookup e.1 [(kv.1, kv.2)]).isSome = true := by
        intro e _ hidx
        exact absurd (by simp [GoMap.index]) hidx
      obtain ⟨m', happly, hdesired, hother⟩ :=
        applyPatch_perKey [] rest [(kv.1, kv.2)] hnd.2 hvac
      refine ⟨some m', ?_, ?_, ?_⟩
      · rw [addAnnotations_none_cons]
        simp only [applyPatch, applyOperation, resolveTarget_container, if_true, Option.bind]
        exact happly
      · intro e he
        rcases List.mem_cons.mp he with h | h
        · subst h
          simp only [annotationOf, Option.bind]
          rw [hother e.1 hnd.1, lookup_cons_ite]
          simp
        · simpa [annotationOf] using hdesired e h
      · intro k hk
        have hk1 : ¬ k = kv.1 := fun e => hk (by simp [e])
        have hk2 : k ∉ rest.map Prod.fst := fun e => hk (by
          simp only [List.map_cons]; exact List.mem_cons_of_mem _ e)
        simp only [annotationOf, Option.bind]
        rw [hother k hk2, lookup_cons_ite]
        simp [hk1, List.lookup]

/-- Instance of C1: existing annotations `a/b ↦ old, c ↦ ""` and the desired
entries `a/b ↦ new, c ↦ 1, d~ ↦ 2`. -/
theorem addAnnotations_applies_witness :
    ∃ final,
      applyPatch (some [("a/b", "old"), ("c", "")])
          (addAnnotations (some [("a/b", "old"), ("c", "")])
            [("a/b", "new"), ("c", "1"), ("d~", "2")]) = some final
      ∧ (∀ kv ∈ [("a/b", "new"), ("c", "1"), ("d~", "2")], annotationOf final kv.1 = some kv.2)
      ∧ (∀ k, k ∉ [("a/b", "new"), ("c", "1"), ("d~", "2")].map Prod.fst →
          annotationOf final k = annotationOf (some [("a/b", "old"), ("c", "")]) k) :=
  addAnnotations_applies (some [("a/b", "old"), ("c", "")])
    [("a/b", "new"), ("c", "1"), ("d~", "2")] (by decide)

/-! ## Further properties of the loop of `addAnnotations` -/

theorem lookup_delete (m : GoMap) (k k' : String) :
    (GoMap.delete m k).lookup k' = if k' = k then none else m.lookup k' := by
  induction m with
  | nil => simp [GoMap.delete]
  | cons e rest ih =>
    obtain ⟨a, b⟩ := e
    have ih2 : List.lookup k' (List.filter (fun e => decide (e.1 ≠ k)) rest)
        = if k' = k then none else List.lookup k' rest := ih
    by_cases hak : a = k
    · subst hak
      simp only [GoMap.delete, List.filter_cons, ne_eq, not_true_eq_false, decide_False,
        Bool.false_eq_true, if_false, lookup_cons_ite, ih2]
      by_cases h : k' = a <;> simp [h]
    · simp only [GoMap.delete, List.filter_cons, ne_eq, hak, not_false_eq_true, decide_True,
        if_true, lookup_cons_ite, ih2]
      by_cases h : k' = a
      · have hk : ¬ k' = k := fun e => hak (h ▸ e)
        simp [h, hak]
      · simp [h]

theorem index_delete (m : GoMap) (k k' : String) (hempty : GoMap.index m k = "") :
    GoMap.index (GoMap.delete m k) k' = GoMap.index m k' := by
  unfold GoMap.index at hempty ⊢
  rw [lookup_delete]
  by_cases h : k' = k
  · subst h; simp [hempty]
  · simp [h]

/-- C11: for a present existing map `cur`, a key `k` with `cur[k] = ""` and any
desired mapping, `addAnnotations` returns the same operations for `cur` and
for `cur` with `k` removed; a desired entry for such a key gets `add`, not
`replace`. -/
theorem addAnnotations_empty_value_as_absent (cur : GoMap) (k : String)
    (toAdd : List (String × String)) (hempty : GoMap.index cur k = "") :
    addAnnotations (some cur) toAdd = addAnnotations (some (GoMap.delete cur k)) toAdd
      ∧ ∀ v : String, addAnnotations (some cur) [(k, v)]
          = [ { Operation := "add"
                Path := "/metadata/annotations/" ++ escapeJSONPointer k
                Value := PatchValue.str v } ] := by
  refine ⟨?_, ?_⟩
  · rw [addAnnotations_some, addAnnotations_some]
    apply List.map_congr_left
    intro kv _
    simp only [perKeyOperation, index_delete cur k kv.1 hempty]
  · intro v
    rw [addAnnotations_some]
    simp [perKeyOperation, hempty]

/-- Instance of C11: the existing map `a ↦ "", b ↦ x` and the key `a`. -/
theorem addAnnotations_empty_value_as_absent_witness :
    addAnnotations (some [("a", ""), ("b", "x")]) [("a", "1"), ("b", "2")]
        = addAnnotations (some (GoMap.delete [("a", ""), ("b", "x")] "a")) [("a", "1"), ("b", "2")]
      ∧ ∀ v : String, addAnnotations (some [("a", ""), ("b", "x")]) [("a", v)]
          = [ { Operation := "add"
                Path := "/metadata/annotations/" ++ escapeJSONPointer "a"
                Value := PatchValue.str v } ] :=
  addAnnotations_empty_value_as_absent [("a", ""), ("b", "x")] "a" [("a", "1"), ("b", "2")]
    (by decide)

/-- C12: with absent annotations and the single desired entry `k ↦ v`,
`addAnnotations` returns exactly one operation: `add` at the unescaped path
`/metadata/annotations` whose value is the map `k ↦ v`. -/
theorem addAnnotations_nil_single (k v : String) :
    addAnnotations none [(k, v)]
      = [ { Operation := "add", Path := "/metadata/annotations",
            Value := PatchValue.obj [(k, v)] } ] := by
  simp [addAnnotations, addAnnotationsStep]

/-- C15: with absent annotations and a non-empty desired mapping enumerated as
`(k_1,v_1),...,(k_n,v_n)`, `addAnnotations` returns `add` at
`/metadata/annotations` with the single-entry map `k_1 ↦ v_1`, followed by
exactly the operations it returns for a present empty map and the entries
`(k_2,v_2),...,(k_n,v_n)`, which are one per-key `add` each. -/
theorem addAnnotations_nil_cons (k v : String) (rest : List (String × String)) :
    addAnnotations none ((k, v) :: rest)
        = { Operation := "add", Path := "/metadata/annotations",
            Value := PatchValue.obj [(k, v)] } :: addAnnotations (some []) rest
      ∧ addAnnotations (some []) rest
        = rest.map (fun e =>
            { Operation := "add"
              Path := "/metadata/annotations/" ++ escapeJSONPointer e.1
              Value := PatchValue.str e.2 }) := by
  refine ⟨?_, ?_⟩
  · rw [addAnnotations_none_cons, addAnnotations_some]
  · rw [addAnnotations_some]
    simp [perKeyOperation, GoMap.index]

/-- C16: for every existing annotation state and every desired mapping, the
number of operations returned by `addAnnotations` is the number of entries of
the desired mapping; an empty desired mapping yields the empty sequence. -/
theorem addAnnotations_length (current : Option GoMap) (toAdd : List (String × String)) :
    (addAnnotations current toAdd).length = toAdd.length
      ∧ addAnnotations current [] = [] := by
  refine ⟨?_, rfl⟩
  cases current with
  | some cur => rw [addAnnotations_some, List.length_map]
  | none =>
    cases toAdd with
    | nil => rfl
    | cons kv rest => rw [addAnnotations_none_cons]; simp

/-! ## Recomputing the patch, and the order of enumeration -/

theorem applyPatch_addAnnotations_cases (current : Option GoMap)
    (toAdd : List (String × String)) (hkeys : (toAdd.map Prod.fst).Nodup) :
    (current = none ∧ toAdd = [])
      ∨ ∃ m', applyPatch current (addAnnotations current toAdd) = some (some m')
          ∧ (∀ kv ∈ toAdd, m'.lookup kv.1 = some kv.2)
          ∧ (∀ k, k ∉ toAdd.map Prod.fst → m'.lookup k = annotationOf current k) := by
  cases current with
  | some cur =>
    right
    have hpresent : ∀ kv ∈ toAdd, GoMap.index cur kv.1 ≠ "" →
        (cur.lookup kv.1).isSome = true := by
      intro kv _ hidx
      obtain ⟨v, hv, _⟩ := (index_ne_empty_iff cur kv.1).mp hidx
      simp [hv]
    obtain ⟨m', happly, hdesired, hother⟩ := applyPatch_perKey cur toAdd cur hkeys hpresent
    exact ⟨m', by rw [addAnnotations_some]; exact happly, hdesired,
      fun k hk => by simpa [annotationOf] using hother k hk⟩
  | none =>
    cases toAdd with
    | nil => exact Or.inl ⟨rfl, rfl⟩
    | cons kv rest =>
      right
      have hnd := List.nodup_cons.mp hkeys
      have hvac : ∀ e ∈ rest, GoMap.index [] e.1 ≠ "" →
          (List.lookup e.1 [(kv.1, kv.2)]).isSome = true := by
        intro e _ hidx
        exact absurd (by simp [GoMap.index]) hidx
      obtain ⟨m', happly, hdesired, hother⟩ :=
        applyPatch_perKey [] rest [(kv.1, kv.2)] hnd.2 hvac
      refine ⟨m', ?_, ?_, ?_⟩
      · rw [addAnnotations_none_cons]
        simp only [applyPatch, applyOperation, resolveTarget_container, if_true, Option.bind]
        exact happly
      · intro e he
        rcases List.mem_cons.mp he with h | h
        · subst h
          rw [hother e.1 hnd.1, lookup_cons_ite]
          simp
        · exact hdesired e h
      · intro k hk
        have hk1 : ¬ k = kv.1 := fun e => hk (by simp [e])
        have hk2 : k ∉ rest.map Prod.fst := fun e => hk (by
          simp only [List.map_cons]; exact List.mem_cons_of_mem _ e)
        rw [hother k hk2, lookup_cons_ite]
        simp [hk1, List.lookup, annotationOf]

theorem applyPatch_addAnnotations_lookup (current : Option GoMap)
    (toAdd : List (String × String)) (hkeys : (toAdd.map Prod.fst).Nodup) :
    ∃ final, applyPatch current (addAnnotations current toAdd) = some final
      ∧ (∀ kv ∈ toAdd, annotationOf final kv.1 = some kv.2)
      ∧ (∀ k, k ∉ toAdd.map Prod.fst → annotationOf final k = annotationOf current k) := by
  rcases applyPatch_addAnnotations_cases current toAdd hkeys with ⟨hc, ht⟩ | ⟨m', h1, h2, h3⟩
  · subst hc; subst ht
    exact ⟨none, rfl, by simp, by simp⟩
  · exact ⟨some m', h1, fun kv hkv => by simpa [annotationOf] using h2 kv hkv,
      fun k hk => by simpa [annotationOf] using h3 k hk⟩

theorem addAnnotations_stored (m : GoMap) (toAdd : List (String × String))
    (hstored : ∀ kv ∈ toAdd, m.lookup kv.1 = some kv.2) :
    addAnnotations (some m) toAdd
      = toAdd.map (fun kv =>
          { Operation := if kv.2 = "" then "add" else "replace"
            Path := "/metadata/annotations/" ++ escapeJSONPointer kv.1
            Value := PatchValue.str kv.2 }) := by
  rw [addAnnotations_some]
  apply List.map_congr_left
  intro kv hkv
  have hidx : GoMap.index m kv.1 = kv.2 := by simp [GoMap.index, hstored kv hkv]
  by_cases hv : kv.2 = "" <;> simp [perKeyOperation, hidx, hv]

/-- C13 (refuted as stated): with absent annotations and the desired mapping
`a ↦ ""`, the patch applies and stores `a ↦ ""`; the patch recomputed against
that result is an `add`, not a `replace`. -/
theorem recomputed_patch_empty_value :
    applyPatch none (addAnnotations none [("a", "")]) = some (some [("a", "")])
      ∧ addAnnotations (some [("a", "")]) [("a", "")]
        = [ { Operation := "add", Path := "/metadata/annotations/a",
              Value := PatchValue.str "" } ] := by
  decide

/-- C13 (amended): for every existing annotation state and every desired
mapping (distinct keys), applying the operations of `addAnnotations` succeeds;
recomputing `addAnnotations` against the resulting annotations with the same
desired mapping gives, for each desired entry, one operation at the path of
its key whose value is the value already stored at that key, a `replace` when
that value is non-empty and an `add` when it is the empty string; applying
the recomputed patch succeeds and leaves every annotation as it was. -/
theorem addAnnotations_recomputed (current : Option GoMap) (toAdd : List (String × String))
    (hkeys : (toAdd.map Prod.fst).Nodup) :
    ∃ final, applyPatch current (addAnnotations current toAdd) = some final
      ∧ addAnnotations final toAdd
          = toAdd.map (fun kv =>
              { Operation := if kv.2 = "" then "add" else "replace"
                Path := "/metadata/annotations/" ++ escapeJSONPointer kv.1
                Value := PatchValue.str kv.2 })
      ∧ (∀ kv ∈ toAdd, annotationOf final kv.1 = some kv.2)
      ∧ ∃ again, applyPatch final (addAnnotations final toAdd) = some again
          ∧ ∀ k, annotationOf again k = annotationOf final k := by
  obtain ⟨final, happly, hdesired, _⟩ := applyPatch_addAnnotations_lookup current toAdd hkeys
  refine ⟨final, happly, ?_, hdesired, ?_⟩
  · cases final with
    | none =>
      cases toAdd with
      | nil => rfl
      | cons kv rest =>
        have := hdesired kv (List.mem_cons_self _ _)
        simp [annotationOf] at this
    | some m =>
      exact addAnnotations_stored m toAdd
        (fun kv hkv => by simpa [annotationOf] using hdesired kv hkv)
  · obtain ⟨again, hagain, hdes2, hoth2⟩ := applyPatch_addAnnotations_lookup final toAdd hkeys
    refine ⟨again, hagain, ?_⟩
    intro k
    by_cases hk : k ∈ toAdd.map Prod.fst
    · obtain ⟨kv, hkv, rfl⟩ := List.mem_map.mp hk
      rw [hdes2 kv hkv, hdesired kv hkv]
    · exact hoth2 k hk

/-- Instance of C13 (amended): existing annotations `a ↦ old` and the desired
entries `a ↦ new, b ↦ ""`. -/
theorem addAnnotations_recomputed_witness :
    ∃ final,
      applyPatch (some [("a", "old")])
          (addAnnotations (some [("a", "old")]) [("a", "new"), ("b", "")]) = some final
      ∧ addAnnotations final [("a", "new"), ("b", "")]
          = [("a", "new"), ("b", "")].map (fun kv =>
              { Operation := if kv.2 = "" then "add" else "replace"
                Path := "/metadata/annotations/" ++ escapeJSONPointer kv.1
                Value := PatchValue.str kv.2 })
      ∧ (∀ kv ∈ [("a", "new"), ("b", "")], annotationOf final kv.1 = some kv.2)
      ∧ ∃ again, applyPatch final (addAnnotations final [("a", "new"), ("b", "")]) = some again
          ∧ ∀ k, annotationOf again k = annotationOf final k :=
  addAnnotations_recomputed (some [("a", "old")]) [("a", "new"), ("b", "")] (by decide)

/-- C14 (refuted as stated): for the present empty map, the two enumerations
`a ↦ 1, b ↦ 2` and `b ↦ 2, a ↦ 1` of one desired mapping give different
operation sequences; with absent annotations they even give different
operations. -/
theorem addAnnotations_order_dependent :
    addAnnotations (some []) [("a", "1"), ("b", "2")]
        ≠ addAnnotations (some []) [("b", "2"), ("a", "1")]
      ∧ ¬ (addAnnotations none [("a", "1"), ("b", "2")]).Perm
            (addAnnotations none [("b", "2"), ("a", "1")]) := by
  decide

/-- C14 (amended): for two enumerations of the same desired mapping (distinct
keys), the operations `addAnnotations` returns for a present existing map are
the same up to their order, which follows the enumeration; and for every
existing annotation state both sequences apply successfully and yield the
same annotations. -/
theorem addAnnotations_enumerations (current : Option GoMap)
    (toAdd toAdd2 : List (String × String))
    (hkeys : (toAdd.map Prod.fst).Nodup) (hperm : toAdd.Perm toAdd2) :
    (∀ cur : GoMap, (addAnnotations (some cur) toAdd).Perm (addAnnotations (some cur) toAdd2))
      ∧ ∃ final final2,
          applyPatch current (addAnnotations current toAdd) = some final
          ∧ applyPatch current (addAnnotations current toAdd2) = some final2
          ∧ ∀ k, annotationOf final k = annotationOf final2 k := by
  refine ⟨?_, ?_⟩
  · intro cur
    rw [addAnnotations_some, addAnnotations_some]
    exact hperm.map _
  · have hkeys2 : (toAdd2.map Prod.fst).Nodup := (hperm.map Prod.fst).nodup_iff.mp hkeys
    obtain ⟨final, h1, hdes1, hoth1⟩ := applyPatch_addAnnotations_lookup current toAdd hkeys
    obtain ⟨final2, h2, hdes2, hoth2⟩ := applyPatch_addAnnotations_lookup current toAdd2 hkeys2
    refine ⟨final, final2, h1, h2, ?_⟩
    intro k
    by_cases hk : k ∈ toAdd.map Prod.fst
    · obtain ⟨kv, hkv, rfl⟩ := List.mem_map.mp hk
      rw [hdes1 kv hkv, hdes2 kv (hperm.mem_iff.mp hkv)]
    · have hk2 : k ∉ toAdd2.map Prod.fst := fun h => hk ((hperm.map Prod.fst).mem_iff.mpr h)
      rw [hoth1 k hk, hoth2 k hk2]

/-- Instance of C14 (amended): the enumerations `a ↦ 1, b ↦ 2` and
`b ↦ 2, a ↦ 1`, with absent annotations. -/
theorem addAnnotations_enumerations_witness :
    (∀ cur : GoMap, (addAnnotations (some cur) [("a", "1"), ("b", "2")]).Perm
        (addAnnotations (some cur) [("b", "2"), ("a", "1")]))
      ∧ ∃ final final2,
          applyPatch none (addAnnotations none [("a", "1"), ("b", "2")]) = some final
          ∧ applyPatch none (addAnnotations none [("b", "2"), ("a", "1")]) = some final2
          ∧ ∀ k, annotationOf final k = annotationOf final2 k :=
  addAnnotations_enumerations none [("a", "1"), ("b", "2")] [("b", "2"), ("a", "1")]
    (by decide) (List.Perm.swap _ _ _)

/-! ## Injectivity of the escaping -/

theorem escapeJSONPointer_injective : Function.Injective escapeJSONPointer := by
  intro a b h
  have := congrArg rfc6901Decode h
  rwa [rfc6901Decode_escapeJSONPointer, rfc6901Decode_escapeJSONPointer] at this

/-- C17: RFC 6901 decoding (every `~1` becomes `/`, then every `~0` becomes
`~`) inverts `escapeJSONPointer`; hence `escapeJSONPointer` is injective, and
two distinct desired keys get distinct escaped segments and distinct patch
paths. -/
theorem escapeJSONPointer_decode (k k2 : String) (hne : k ≠ k2) :
    stringsReplace (stringsReplace (escapeJSONPointer k) "~1" "/") "~0" "~" = k
      ∧ Function.Injective escapeJSONPointer
      ∧ escapeJSONPointer k ≠ escapeJSONPointer k2
      ∧ "/metadata/annotations/" ++ escapeJSONPointer k
          ≠ "/metadata/annotations/" ++ escapeJSONPointer k2 := by
  refine ⟨rfc6901Decode_escapeJSONPointer k, escapeJSONPointer_injective, ?_, ?_⟩
  · exact fun h => hne (escapeJSONPointer_injective h)
  · intro h
    have hd := congrArg String.data h
    rw [String.data_append, String.data_append] at hd
    exact hne (escapeJSONPointer_injective (String.ext (List.append_cancel_left hd)))

/-- Instance of C17: the keys `a/b` and `a~1b`, escaped to `a~1b` and
`a~01b`. -/
theorem escapeJSONPointer_decode_witness :
    stringsReplace (stringsReplace (escapeJSONPointer "a/b") "~1" "/") "~0" "~" = "a/b"
      ∧ Function.Injective escapeJSONPointer
      ∧ escapeJSONPointer "a/b" ≠ escapeJSONPointer "a~1b"
      ∧ "/metadata/annotations/" ++ escapeJSONPointer "a/b"
          ≠ "/metadata/annotations/" ++ escapeJSONPointer "a~1b" :=
  escapeJSONPointer_decode "a/b" "a~1b" (by decide)

/-! ## Shape of every admission response -/

/-- C18: for every decoded request, `getAdmissionDecision` returns a response,
and that response carries a patch if and only if it carries the patch type
`JSONPatch`, and carries a status if and only if allowed is false. -/
theorem getAdmissionDecision_response_shape (json : JsonCodec)
    (rangeOrder : List (String × String)) (review : AdmissionReview) (req : AdmissionRequest)
    (hreq : review.Request = some req) :
    ∃ resp, getAdmissionDecision json rangeOrder review = some resp
      ∧ (resp.Patch.isSome = true ↔ resp.PatchType = some "JSONPatch")
      ∧ (resp.Result.isSome = true ↔ resp.Allowed = false) := by
  cases hpod : json.unmarshalPod req.Object.Raw with
  | error err =>
    exact ⟨admissionError err, by simp [getAdmissionDecision, hreq, hpod],
      by simp [admissionError], by simp [admissionError]⟩
  | ok pod =>
    by_cases hinj : shouldInject pod.ObjectMeta = true
    · cases hpatch : patchConfig json pod rangeOrder with
      | error err =>
        exact ⟨admissionError err, by simp [getAdmissionDecision, hreq, hpod, hinj, hpatch],
          by simp [admissionError], by simp [admissionError]⟩
      | ok patch =>
        exact ⟨{ Allowed := true, Patch := some patch, PatchType := some PatchTypeJSONPatch,
                 UID := req.UID },
          by simp [getAdmissionDecision, hreq, hpod, hinj, hpatch],
          by simp [PatchTypeJSONPatch], by simp⟩
    · exact ⟨{ Allowed := true, UID := req.UID },
        by simp [getAdmissionDecision, hreq, hpod, hinj], by simp, by simp⟩

/-- Instance of C18: the request `uid-1` carrying the truncated raw object. -/
theorem getAdmissionDecision_response_shape_witness :
    ∃ resp, getAdmissionDecision sampleCodec conduitAnnotation
          { Request := some { UID := "uid-1", Object := { Raw := rawTruncated } } } = some resp
      ∧ (resp.Patch.isSome = true ↔ resp.PatchType = some "JSONPatch")
      ∧ (resp.Result.isSome = true ↔ resp.Allowed = false) :=
  getAdmissionDecision_response_shape sampleCodec conduitAnnotation
    { Request := some { UID := "uid-1", Object := { Raw := rawTruncated } } }
    { UID := "uid-1", Object := { Raw := rawTruncated } } rfl

/-! ## Content type check of the handler -/

/-- C19: for every request whose Content-Type is not exactly
`application/json`, whatever the body (readable or not) and whatever the
serialization services answer, `handler` returns before decoding: it builds no
review and writes nothing.  This covers `application/json; charset=utf-8` and
a missing header. -/
theorem handler_wrong_content_type (json : JsonCodec) (rangeOrder : List (String × String))
    (body : Except GoError Bytes) (contentType : String)
    (hct : contentType ≠ "application/json") :
    handler json rangeOrder { Body := body, ContentType := contentType }
        = HandlerResult.aborted
      ∧ handler json rangeOrder
          { Body := body, ContentType := "application/json; charset=utf-8" }
        = HandlerResult.aborted
      ∧ handler json rangeOrder { Body := body, ContentType := "" }
        = HandlerResult.aborted := by
  have key : ∀ ct : String, ct ≠ "application/json" →
      handler json rangeOrder { Body := body, ContentType := ct } = HandlerResult.aborted := by
    intro ct h
    unfold handler
    cases body with
    | error e => rfl
    | ok b => simp [h]
  exact ⟨key _ hct, key _ (by decide), key _ (by decide)⟩

/-- Instance of C19: a well-formed body sent as `text/plain`. -/
theorem handler_wrong_content_type_witness :
    handler sampleCodec conduitAnnotation
          { Body := Except.ok rawEmptyPod, ContentType := "text/plain" }
        = HandlerResult.aborted
      ∧ handler sampleCodec conduitAnnotation
          { Body := Except.ok rawEmptyPod, ContentType := "application/json; charset=utf-8" }
        = HandlerResult.aborted
      ∧ handler sampleCodec conduitAnnotation { Body := Except.ok rawEmptyPod, ContentType := "" }
        = HandlerResult.aborted :=
  handler_wrong_content_type sampleCodec conduitAnnotation (Except.ok rawEmptyPod) "text/plain"
    (by decide)

end Webhook
